import Mathlib

/-!
Verification of the tile-rearrangement qualifier (`src/qualifier/qualifier.py`).

The embedding models:
* a decoded raster image as a `PImage` (height, width, sample depth in bits,
  and a pixel function; the channel axis is absorbed into the sample value,
  since every copy in the source moves whole pixels including all channels);
* `valid_input` exactly as in the source, returning `none` where the Python
  code would raise `ZeroDivisionError` (tile dimension 0), `some b` otherwise;
* numpy basic slicing with clipping (`sliceLen`) and slice assignment with
  broadcasting and the `uint8` cast (`assignTile`), where `none` models the
  `ValueError` numpy raises when shapes cannot broadcast;
* the copy loop of `rearrange_tiles` (`rearrangeLoop`, `rearrange_core`), with
  `rows = columns = max h w / tile` exactly as in the source;
* the full `rearrange_tiles` entry point over an abstract file system: the
  boolean `fileExists` stands for `Path(image_path).exists()`, the `PImage`
  argument is the image that decoding would produce, and the `Except` result
  separates the raised errors from the image that would be written to
  `out_path` (a file is written if and only if the result is `Except.ok`).
-/

/-- A decoded raster image: height, width, bits per sample, pixel values.
`pix i j` is meaningful for `i < h`, `j < w`. -/
@[ext]
structure PImage where
  h : Nat
  w : Nat
  depth : Nat
  pix : Nat → Nat → Nat

/-- Length of the numpy basic slice `[a:b]` of an axis of size `n`
(Python guarantees `a ≤ b` at every call site here, both non-negative). -/
def sliceLen (a b n : Nat) : Nat := min b n - min a n

/-- Model of `valid_input` from the source, line for line.  `none` models the
`ZeroDivisionError` Python raises when a tile dimension is zero (`%` first,
then the float division `tiles = (h*w)/(th*tw)`); the float `is_integer` /
equality tests are exact over the naturals. -/
def valid_input (image_size tile_size : Nat × Nat) (ordering : List Nat) : Option Bool :=
  if tile_size.1 = 0 then none
  else if image_size.1 % tile_size.1 ≠ 0 then some false
  else if tile_size.2 = 0 then none
  else if image_size.2 % tile_size.2 ≠ 0 then some false
  else if ¬ ordering.Nodup then some false
  else if (image_size.1 * image_size.2) % (tile_size.1 * tile_size.2) ≠ 0 then some false
  else if (image_size.1 * image_size.2) / (tile_size.1 * tile_size.2) ≠ ordering.length then some false
  else some true

/-- Pixel function after the numpy slice assignment
`dst[r : r+th, c : c+tw] = src[ir : ir+th, ic : ic+tw]` on uint8 `dst`:
within the clipped destination region the value comes from the source region
(a source extent of 1 is broadcast across the destination extent), cast to
uint8 (`% 256`); outside the region `dst` is unchanged. -/
def assignPix (dst src : PImage) (r c ir ic th tw : Nat) (i j : Nat) : Nat :=
  if r ≤ i ∧ i < r + sliceLen r (r + th) dst.h ∧ c ≤ j ∧ j < c + sliceLen c (c + tw) dst.w then
    src.pix (ir + (if sliceLen ir (ir + th) src.h = 1 then 0 else i - r))
      (ic + (if sliceLen ic (ic + tw) src.w = 1 then 0 else j - c)) % 256
  else dst.pix i j

/-- One numpy slice assignment
`dst[r : r+th, c : c+tw] = src[ir : ir+th, ic : ic+tw]` on uint8 `dst`:
both regions are clipped to the array bounds, the source is broadcast onto the
destination region (each source extent must equal the destination extent or 1),
values are cast to uint8.  `none` models the `ValueError` numpy raises when
the shapes cannot broadcast. -/
def assignTile (dst src : PImage) (r c ir ic th tw : Nat) : Option PImage :=
  if (sliceLen ir (ir + th) src.h = sliceLen r (r + th) dst.h ∨ sliceLen ir (ir + th) src.h = 1)
      ∧ (sliceLen ic (ic + tw) src.w = sliceLen c (c + tw) dst.w ∨ sliceLen ic (ic + tw) src.w = 1) then
    some { dst with pix := assignPix dst src r c ir ic th tw }
  else none

/-- The copy loop `for index, tile_index in enumerate(ordering)` of
`rearrange_tiles`.  `index` is the enumeration counter; per iteration
`r = (index // rows) * tile_size[1]`, `c = (index % columns) * tile_size[0]`,
`image_r`, `image_c` likewise from `tile_index`, then the slice assignment
with row extent `tile_size[0]` and column extent `tile_size[1]`.  `none`
models the `ZeroDivisionError` on `index // rows` when `rows` or `columns`
is zero, and any broadcast `ValueError` from the assignment. -/
def rearrangeLoop (image : PImage) (th tw rows columns : Nat) :
    Nat → List Nat → PImage → Option PImage
  | _, [], dst => some dst
  | index, ti :: rest, dst =>
    if rows = 0 ∨ columns = 0 then none
    else
      match assignTile dst image (index / rows * tw) (index % columns * th)
          (ti / rows * tw) (ti % columns * th) th tw with
      | some dst2 => rearrangeLoop image th tw rows columns (index + 1) rest dst2
      | none => none

/-- The transform after validation: allocate
`unscrambled_array = np.zeros(image.shape, dtype=np.uint8)` (depth 8, all
zeros, same dimensions), compute `m = max(image_size)`,
`rows = m // tile_size[1]`, `columns = m // tile_size[0]`, then run the copy
loop.  The leading test models the `ZeroDivisionError` of `m // 0`. -/
def rearrange_core (image : PImage) (tile_size : Nat × Nat) (ordering : List Nat) :
    Option PImage :=
  if tile_size.1 = 0 ∨ tile_size.2 = 0 then none
  else
    rearrangeLoop image tile_size.1 tile_size.2
      (max image.h image.w / tile_size.2) (max image.h image.w / tile_size.1)
      0 ordering ⟨image.h, image.w, 8, fun _ _ => 0⟩

/-- The errors `rearrange_tiles` can raise. -/
inductive RError where
  | notFound
  | invalidInput
  | zeroDiv
  | broadcast
deriving DecidableEq

/-- The message attached to each raised error (`notFound` and `invalidInput`
carry the exact `ValueError` strings from the source; the other two stand for
the messages of the propagated `ZeroDivisionError` / numpy `ValueError`,
which are never equal to the two fixed strings). -/
def errMessage : RError → String
  | RError.notFound => "The image path does not exist"
  | RError.invalidInput => "The tile size or ordering are not valid for the given image"
  | RError.zeroDiv => "integer division or modulo by zero"
  | RError.broadcast => "could not broadcast input array"

/-- Model of `rearrange_tiles` from the source: check `Path(image_path).exists()`
(the `fileExists` argument), decode (the `image` argument is the decoded
image), validate, run the copy loop, and on success write the result
(`Except.ok` is the image written to `out_path`; every `Except.error` is a
raised exception, with no file written). -/
def rearrange_tiles (fileExists : Bool) (image : PImage) (tile_size : Nat × Nat)
    (ordering : List Nat) : Except RError PImage :=
  if fileExists = false then Except.error RError.notFound
  else
    match valid_input (image.h, image.w) tile_size ordering with
    | none => Except.error RError.zeroDiv
    | some false => Except.error RError.invalidInput
    | some true =>
      match rearrange_core image tile_size ordering with
      | some out => Except.ok out
      | none => Except.error RError.broadcast

/-- Pixel of a successful result (`none` when an exception was raised). -/
def getPix (res : Except RError PImage) (i j : Nat) : Option Nat :=
  match res with
  | Except.ok out => some (out.pix i j)
  | Except.error _ => none

/-- Sample depth of a successful result. -/
def getDepth (res : Except RError PImage) : Option Nat :=
  match res with
  | Except.ok out => some out.depth
  | Except.error _ => none

/-- The raised error, if any. -/
def getErr (res : Except RError PImage) : Option RError :=
  match res with
  | Except.ok _ => none
  | Except.error e => some e

/-- Whether the call succeeded (an output file would be written). -/
def isOk (res : Except RError PImage) : Bool :=
  match res with
  | Except.ok _ => true
  | Except.error _ => false

/-- A 1x1 8-bit test image. -/
def cimg11 : PImage := ⟨1, 1, 8, fun _ _ => 7⟩

/-- A 2x1 8-bit test image (taller than wide). -/
def cimg21 : PImage := ⟨2, 1, 8, fun i j => 16 * i + j + 5⟩

/-- A 2x3 8-bit test image (wider than tall). -/
def cimg23 : PImage := ⟨2, 3, 8, fun i j => 10 * i + j + 1⟩

/-- A 4x4 8-bit test image with pairwise distinct pixel values. -/
def cimg44 : PImage := ⟨4, 4, 8, fun i j => 16 * i + j + 1⟩

/-- A 6x6 8-bit test image. -/
def cimg66 : PImage := ⟨6, 6, 8, fun i j => 10 * i + j + 3⟩

/-- A 1x1 16-bit test image with a sample value above 255. -/
def cimg16bit : PImage := ⟨1, 1, 16, fun _ _ => 300⟩

/-- Two chained calls of `rearrange_tiles`: the output written by the first
call is decoded again and fed to the second (errors propagate). -/
def rearrangeTwice (fileExists : Bool) (img : PImage) (ts : Nat × Nat)
    (o1 o2 : List Nat) : Except RError PImage :=
  match rearrange_tiles fileExists img ts o1 with
  | Except.ok mid => rearrange_tiles fileExists mid ts o2
  | Except.error e => Except.error e

/-- Helper for the proofs: pixel function of an unclipped, shape-matching
slice copy (what `assignPix` reduces to when neither region is clipped). -/
def copyPix (dst src : PImage) (r c ir ic th tw : Nat) (i j : Nat) : Nat :=
  if r ≤ i ∧ i < r + th ∧ c ≤ j ∧ j < c + tw then
    src.pix (ir + (i - r)) (ic + (j - c)) % 256
  else dst.pix i j

/-- C3: `valid_input` accepts an ordering with a value that is not a valid
tile index: for a 4x4 image with 2x2 tiles (tileCount 4) the ordering
`[0, 1, 2, 100]` has the right length and no duplicates, so `valid_input`
returns `True` even though `100 ≥ 4`, contradicting the claim (and the
function's own docstring, which requires the ordering to use each input
tile exactly once). -/
theorem C3_range_unchecked :
    valid_input (4, 4) (2, 2) [0, 1, 2, 100] = some true ∧
    ¬ (∀ x ∈ ([0, 1, 2, 100] : List Nat), x < 4) := by
  constructor
  · decide
  · decide

/-- C9: when the source path does not exist, `rearrange_tiles` raises the
NotFound error at once — for every image whatsoever, i.e. without looking at
the decoded image (no decode attempt) — and returns no output image (no
output file is written). -/
theorem C9_not_found (img : PImage) (ts : Nat × Nat) (ord : List Nat) :
    rearrange_tiles false img ts ord = Except.error RError.notFound := rfl

/-- C7: for positive tile dimensions, if some tile dimension does not evenly
divide the corresponding image dimension then `valid_input` returns `False`,
regardless of the ordering. -/
theorem C7_indivisible_rejected (h w th tw : Nat) (ord : List Nat)
    (hth : 0 < th) (htw : 0 < tw) (hnd : h % th ≠ 0 ∨ w % tw ≠ 0) :
    valid_input (h, w) (th, tw) ord = some false := by
  unfold valid_input
  rcases hnd with hcase | hcase
  · rw [if_neg (by omega), if_pos (by exact hcase)]
  · by_cases hfirst : h % th ≠ 0
    · rw [if_neg (by omega), if_pos hfirst]
    · rw [if_neg (by omega), if_neg hfirst, if_neg (by omega), if_pos hcase]

/-- C7 witness: the concrete scenario of the claim, a 4x4 image with 3x3
tiles is rejected (4 is not divisible by 3). -/
theorem C7_witness :
    (0 < 3 ∧ 0 < 3 ∧ (4 % 3 ≠ 0 ∨ 4 % 3 ≠ 0)) ∧
    valid_input (4, 4) (3, 3) [0, 1] = some false :=
  ⟨⟨by decide, by decide, Or.inl (by decide)⟩,
    C7_indivisible_rejected 4 4 3 3 [0, 1] (by decide) (by decide) (Or.inl (by decide))⟩

/-- C6: for positive tile dimensions that evenly divide the image dimensions
and an ordering that is a permutation of `[0, tileCount)`, `valid_input`
returns `True`. -/
theorem C6_perm_accepted (h w th tw : Nat) (ord : List Nat)
    (hth : 0 < th) (htw : 0 < tw) (hdh : h % th = 0) (hdw : w % tw = 0)
    (hperm : ord.Perm (List.range (h * w / (th * tw)))) :
    valid_input (h, w) (th, tw) ord = some true := by
  obtain ⟨a, ha⟩ : th ∣ h := Nat.dvd_of_mod_eq_zero hdh
  obtain ⟨b, hb⟩ : tw ∣ w := Nat.dvd_of_mod_eq_zero hdw
  have harea : h * w = (th * tw) * (a * b) := by rw [ha, hb]; ring
  have hnodup : ord.Nodup := hperm.nodup_iff.mpr (List.nodup_range _)
  have hlen : ord.length = h * w / (th * tw) := by
    rw [hperm.length_eq, List.length_range]
  unfold valid_input
  rw [if_neg (by omega), if_neg (by simpa using hdh), if_neg (by omega),
    if_neg (by simpa using hdw), if_neg (by simpa using hnodup),
    if_neg (by simp [harea, Nat.mul_mod_right]),
    if_neg (by simpa using hlen.symm)]

/-- C6 witness: a 4x4 image with 2x2 tiles and the permutation
`[1, 0, 3, 2]` of `[0, 4)` is accepted. -/
theorem C6_witness :
    (0 < 2 ∧ 0 < 2 ∧ 4 % 2 = 0 ∧ 4 % 2 = 0 ∧
      ([1, 0, 3, 2] : List Nat).Perm (List.range (4 * 4 / (2 * 2)))) ∧
    valid_input (4, 4) (2, 2) [1, 0, 3, 2] = some true :=
  ⟨⟨by decide, by decide, by decide, by decide, by decide⟩,
    C6_perm_accepted 4 4 2 2 [1, 0, 3, 2] (by decide) (by decide) (by decide)
      (by decide) (by decide)⟩

/-- C4: with an existing input file, `rearrange_tiles` raises the error
whose message is exactly "The tile size or ordering are not valid for the
given image" precisely when `valid_input` returns `False` on the decoded
image's dimensions; the validation precedes the allocation of the output
buffer and the write, so every `Except.error` result writes no file. -/
theorem C4_invalid_error_iff (img : PImage) (ts : Nat × Nat) (ord : List Nat) :
    (rearrange_tiles true img ts ord = Except.error RError.invalidInput ↔
      valid_input (img.h, img.w) ts ord = some false) ∧
    errMessage RError.invalidInput =
      "The tile size or ordering are not valid for the given image" := by
  refine ⟨⟨fun hE => ?_, fun hv => by simp [rearrange_tiles, hv]⟩, rfl⟩
  rcases hv : valid_input (img.h, img.w) ts ord with _ | b
  · simp [rearrange_tiles, hv] at hE
  · rcases b with _ | _
    · rfl
    · rcases hc : rearrange_core img ts ord with _ | out <;>
        simp [rearrange_tiles, hv, hc] at hE

/-- Every successful `assignTile` only changes the pixel function, never the
dimensions or depth of the destination buffer. -/
theorem assignTile_dims (dst src : PImage) (r c ir ic th tw : Nat) (dst2 : PImage)
    (ha : assignTile dst src r c ir ic th tw = some dst2) :
    dst2.h = dst.h ∧ dst2.w = dst.w ∧ dst2.depth = dst.depth := by
  unfold assignTile at ha
  split at ha
  · rw [← Option.some.inj ha]
    exact ⟨rfl, rfl, rfl⟩
  · exact Option.noConfusion ha

/-- The copy loop only changes the pixel function of the output buffer, never
its dimensions or depth. -/
theorem rearrangeLoop_dims (img : PImage) (th tw rows cols : Nat) :
    ∀ (L : List Nat) (s : Nat) (dst dst' : PImage),
      rearrangeLoop img th tw rows cols s L dst = some dst' →
      dst'.h = dst.h ∧ dst'.w = dst.w ∧ dst'.depth = dst.depth := by
  intro L
  induction L with
  | nil =>
    intro s dst dst' hld
    simp only [rearrangeLoop, Option.some.injEq] at hld
    rw [← hld]
    exact ⟨rfl, rfl, rfl⟩
  | cons ti rest ih =>
    intro s dst dst' hld
    simp only [rearrangeLoop] at hld
    split at hld
    · exact Option.noConfusion hld
    · rcases ha : assignTile dst img (s / rows * tw) (s % cols * th) (ti / rows * tw)
          (ti % cols * th) th tw with _ | dst2
      · rw [ha] at hld
        exact Option.noConfusion hld
      · rw [ha] at hld
        have h2 := ih (s + 1) dst2 dst' hld
        have h3 := assignTile_dims dst img _ _ _ _ th tw dst2 ha
        exact ⟨h2.1.trans h3.1, h2.2.1.trans h3.2.1, h2.2.2.trans h3.2.2⟩

/-- C5 counterexample: a 1x1 16-bit image with sample value 300 is accepted
by validation with 1x1 tiles, but the written output has depth 8 (the source
hardcodes `dtype=np.uint8`), not the input's 16, and the sample is reduced
to 300 mod 256 = 44 — the output is not of identical channel depth. -/
theorem C5_counterexample :
    cimg16bit.depth = 16 ∧ cimg16bit.pix 0 0 = 300 ∧
    valid_input (cimg16bit.h, cimg16bit.w) (1, 1) [0] = some true ∧
    getDepth (rearrange_tiles true cimg16bit (1, 1) [0]) = some 8 ∧
    getPix (rearrange_tiles true cimg16bit (1, 1) [0]) 0 0 = some 44 :=
  ⟨rfl, rfl, by decide, by decide, by decide⟩

/-- C5 (amended): every successful `rearrange_tiles` writes an output with
the input's pixel dimensions, but with sample depth always 8 bits — equal to
the input's depth exactly when the input is 8-bit. -/
theorem C5_output_shape (img : PImage) (ts : Nat × Nat) (ord : List Nat) (out : PImage)
    (hok : rearrange_tiles true img ts ord = Except.ok out) :
    out.h = img.h ∧ out.w = img.w ∧ out.depth = 8 ∧
      (img.depth = 8 → out.depth = img.depth) := by
  unfold rearrange_tiles at hok
  rw [if_neg (by simp)] at hok
  rcases hv : valid_input (img.h, img.w) ts ord with _ | b
  · rw [hv] at hok
    exact Except.noConfusion hok
  · rcases b with _ | _
    · rw [hv] at hok
      exact Except.noConfusion hok
    · rw [hv] at hok
      rcases hc : rearrange_core img ts ord with _ | mid
      · rw [hc] at hok
        exact Except.noConfusion hok
      · rw [hc] at hok
        obtain rfl : mid = out := Except.ok.inj hok
        unfold rearrange_core at hc
        split at hc
        · exact Option.noConfusion hc
        · have hd := rearrangeLoop_dims img ts.1 ts.2 _ _ ord 0 _ mid hc
          refine ⟨hd.1, hd.2.1, hd.2.2, fun h8 => ?_⟩
          rw [hd.2.2, h8]

/-- C5 witness: a successful concrete run (1x1 8-bit image, 1x1 tiles,
identity ordering) whose output keeps the dimensions and depth. -/
theorem C5_witness :
    ∃ out, rearrange_tiles true cimg11 (1, 1) [0] = Except.ok out ∧
      out.h = cimg11.h ∧ out.w = cimg11.w ∧ out.depth = 8 ∧
      (cimg11.depth = 8 → out.depth = cimg11.depth) := by
  rcases hc : rearrange_tiles true cimg11 (1, 1) [0] with e | out
  · have hok : isOk (rearrange_tiles true cimg11 (1, 1) [0]) = true := by decide
    rw [hc] at hok
    exact Bool.noConfusion hok
  · exact ⟨out, rfl, C5_output_shape cimg11 (1, 1) [0] out hc⟩

/-- C10 counterexample: the input `ordering = [0, 1, 2, 100]` on a 4x4 image
with 2x2 tiles is accepted by `valid_input`, but `rearrange_tiles` does not
run to completion with a zero-filled tile: the out-of-range source index 100
yields an empty source slice, numpy cannot broadcast shape (0, 2) into
(2, 2), and the call raises an error — contradicting the claim that no error
is raised on such inputs. -/
theorem C10_counterexample :
    valid_input (4, 4) (2, 2) [0, 1, 2, 100] = some true ∧
    getErr (rearrange_tiles true cimg44 (2, 2) [0, 1, 2, 100]) = some RError.broadcast :=
  ⟨by decide, by decide⟩

/-- C10 (amended): inputs whose ordering contains an index ≥ tileCount are
indeed accepted by `valid_input` (here `[0, 1, 2, 100]` with tileCount 4),
but on such inputs `rearrange_tiles` raises a numpy broadcast error instead
of writing an image with a black tile: the destination tile is never
zero-filled because no output is produced at all. -/
theorem C10_broadcast_failure :
    valid_input (4, 4) (2, 2) [0, 1, 2, 100] = some true ∧
    (∃ x ∈ ([0, 1, 2, 100] : List Nat), ¬ x < 4) ∧
    getErr (rearrange_tiles true cimg44 (2, 2) [0, 1, 2, 100]) = some RError.broadcast ∧
    isOk (rearrange_tiles true cimg44 (2, 2) [0, 1, 2, 100]) = false :=
  ⟨by decide, by decide, by decide, by decide⟩

/-- C1 counterexample: the identity ordering does not reproduce the input on
images the claim covers.  (a) On the 2x1 image with 1x1 tiles (dimensions
exact multiples of the tile dimensions) the square-grid layout
`rows = columns = max(2,1)//1 = 2` leaves pixel (1,0) unwritten: the output
holds 0 there while the input holds 21.  (b) Likewise on the square 6x6
image with rectangular 2x3 tiles, pixel (2,0) comes out 0 instead of 23. -/
theorem C1_counterexample :
    (cimg21.h % 1 = 0 ∧ cimg21.w % 1 = 0 ∧
      getPix (rearrange_tiles true cimg21 (1, 1) (List.range 2)) 1 0 = some 0 ∧
      cimg21.pix 1 0 = 21) ∧
    (cimg66.h % 2 = 0 ∧ cimg66.w % 3 = 0 ∧
      getPix (rearrange_tiles true cimg66 (2, 3) (List.range 6)) 2 0 = some 0 ∧
      cimg66.pix 2 0 = 23) :=
  ⟨⟨by decide, by decide, by decide, by decide⟩,
    ⟨by decide, by decide, by decide, by decide⟩⟩

/-- C2 counterexample: on the 2x1 image with 1x1 tiles, the ordering `[0, 1]`
is a permutation of `[0, 2)` and is its own inverse, yet applying
`rearrange_tiles` twice yields 0 at pixel (1,0) where the original holds 21:
the round trip loses the pixels the square-grid layout never copies. -/
theorem C2_counterexample :
    cimg21.h % 1 = 0 ∧ cimg21.w % 1 = 0 ∧
    ([0, 1] : List Nat).Perm (List.range 2) ∧
    (∀ x < 2, ([0, 1] : List Nat).getD (([0, 1] : List Nat).getD x 0) 0 = x) ∧
    getPix (rearrangeTwice true cimg21 (1, 1) [0, 1] [0, 1]) 1 0 = some 0 ∧
    cimg21.pix 1 0 = 21 :=
  ⟨by decide, by decide, by decide, by decide, by decide, by decide⟩

/-- Helper: a slice that stays inside the axis is not clipped. -/
theorem sliceLen_full (a t n : Nat) (h : a + t ≤ n) : sliceLen a (a + t) n = t := by
  unfold sliceLen
  rw [Nat.min_eq_left h, Nat.min_eq_left (Nat.le_trans (Nat.le_add_right a t) h)]
  omega

/-- Helper: an index between consecutive multiples of `t` lies in that cell. -/
theorem cell_range_iff (i a t : Nat) (ht : 0 < t) :
    (a * t ≤ i ∧ i < a * t + t) ↔ i / t = a := by
  constructor
  · rintro ⟨h1, h2⟩
    have h3 := Nat.div_mul_le_self i t
    have h4 := Nat.div_add_mod' i t
    have h5 : i % t < t := Nat.mod_lt i ht
    rcases Nat.lt_trichotomy (i / t) a with h | h | h
    · have h6 : (i / t + 1) * t ≤ a * t := Nat.mul_le_mul_right t h
      rw [add_one_mul] at h6
      omega
    · exact h
    · have h6 : (a + 1) * t ≤ i / t * t := Nat.mul_le_mul_right t h
      rw [add_one_mul] at h6
      omega
  · intro h
    have h4 := Nat.div_add_mod' i t
    have h5 : i % t < t := Nat.mod_lt i ht
    rw [← h]
    omega

/-- Helper: decomposition of a cell index into grid row and column. -/
theorem cell_decomp (a b N : Nat) (hb : b < N) :
    (a * N + b) / N = a ∧ (a * N + b) % N = b := by
  have hN : 0 < N := Nat.lt_of_le_of_lt (Nat.zero_le b) hb
  constructor
  · rw [Nat.mul_comm a N, Nat.mul_add_div hN, Nat.div_eq_of_lt hb, Nat.add_zero]
  · rw [Nat.mul_comm a N, Nat.mul_add_mod, Nat.mod_eq_of_lt hb]

/-- When both regions lie fully inside their arrays, `assignTile` succeeds
and performs a plain shape-preserving copy. -/
theorem assignTile_full (dst src : PImage) (r c ir ic th tw : Nat)
    (h1 : r + th ≤ dst.h) (h2 : c + tw ≤ dst.w) (h3 : ir + th ≤ src.h) (h4 : ic + tw ≤ src.w) :
    assignTile dst src r c ir ic th tw =
      some { dst with pix := copyPix dst src r c ir ic th tw } := by
  have e1 : sliceLen r (r + th) dst.h = th := sliceLen_full r th dst.h h1
  have e2 : sliceLen c (c + tw) dst.w = tw := sliceLen_full c tw dst.w h2
  have e3 : sliceLen ir (ir + th) src.h = th := sliceLen_full ir th src.h h3
  have e4 : sliceLen ic (ic + tw) src.w = tw := sliceLen_full ic tw src.w h4
  unfold assignTile
  rw [if_pos ⟨Or.inl (e3.trans e1.symm), Or.inl (e4.trans e2.symm)⟩]
  refine congrArg some ?_
  congr 1
  funext i j
  unfold assignPix copyPix
  rw [e1, e2]
  by_cases hin : r ≤ i ∧ i < r + th ∧ c ≤ j ∧ j < c + tw
  · rw [if_pos hin, if_pos hin]
    obtain ⟨a1, a2, a3, a4⟩ := hin
    have g1 : (if sliceLen ir (ir + th) src.h = 1 then 0 else i - r) = i - r := by
      rw [e3]
      split
      · omega
      · rfl
    have g2 : (if sliceLen ic (ic + tw) src.w = 1 then 0 else j - c) = j - c := by
      rw [e4]
      split
      · omega
      · rfl
    rw [g1, g2]
  · rw [if_neg hin, if_neg hin]

/-- Characterization of the copy loop for square `t`x`t` tiles on an image of
`n*t` rows and `N*t` columns with `n ≤ N` (so `rows = columns = N`): the loop
never fails, and the pixel at `(i, j)` is the one copied by the iteration
whose destination cell `(i/t, j/t)` has cell index `i/t*N + j/t` inside the
processed range, from the source cell of the corresponding ordering entry. -/
theorem rearrangeLoop_square (img : PImage) (t n N : Nat) (ht : 0 < t)
    (hh : img.h = n * t) (hw : img.w = N * t) :
    ∀ (L : List Nat) (s : Nat) (dst : PImage),
      dst.h = img.h → dst.w = img.w →
      s + L.length ≤ n * N → (∀ x ∈ L, x < n * N) →
      ∃ dst2, rearrangeLoop img t t N N s L dst = some dst2 ∧
        dst2.h = dst.h ∧ dst2.w = dst.w ∧ dst2.depth = dst.depth ∧
        ∀ i j, dst2.pix i j =
          if s ≤ i / t * N + j / t ∧ i / t * N + j / t < s + L.length ∧ i < img.h ∧ j < img.w
          then img.pix (L.getD (i / t * N + j / t - s) 0 / N * t + i % t) (L.getD (i / t * N + j / t - s) 0 % N * t + j % t) % 256
          else dst.pix i j := by
  intro L
  induction L with
  | nil =>
    intro s dst hdh hdw hsl hmem
    refine ⟨dst, rfl, rfl, rfl, rfl, fun i j => ?_⟩
    rw [if_neg]
    rintro ⟨hA, hB, -, -⟩
    rw [List.length_nil, Nat.add_zero] at hB
    exact Nat.lt_irrefl s (Nat.lt_of_le_of_lt hA hB)
  | cons ti rest ih =>
    intro s dst hdh hdw hsl hmem
    rw [List.length_cons] at hsl
    have hs : s < n * N := by omega
    have hN : 0 < N := by
      rcases Nat.eq_zero_or_pos N with h0 | h0
      · rw [h0, Nat.mul_zero] at hs
        exact absurd hs (Nat.not_lt_zero s)
      · exact h0
    have hti : ti < n * N := hmem ti (List.mem_cons_self ti rest)
    have hsdiv : s / N < n := (Nat.div_lt_iff_lt_mul hN).mpr hs
    have htdiv : ti / N < n := (Nat.div_lt_iff_lt_mul hN).mpr hti
    have hsmod : s % N < N := Nat.mod_lt s hN
    have htmod : ti % N < N := Nat.mod_lt ti hN
    have hr : s / N * t + t ≤ dst.h := by
      rw [hdh, hh]
      calc s / N * t + t = (s / N + 1) * t := by rw [add_one_mul]
        _ ≤ n * t := Nat.mul_le_mul_right t hsdiv
    have hc : s % N * t + t ≤ dst.w := by
      rw [hdw, hw]
      calc s % N * t + t = (s % N + 1) * t := by rw [add_one_mul]
        _ ≤ N * t := Nat.mul_le_mul_right t hsmod
    have hir : ti / N * t + t ≤ img.h := by
      rw [hh]
      calc ti / N * t + t = (ti / N + 1) * t := by rw [add_one_mul]
        _ ≤ n * t := Nat.mul_le_mul_right t htdiv
    have hic : ti % N * t + t ≤ img.w := by
      rw [hw]
      calc ti % N * t + t = (ti % N + 1) * t := by rw [add_one_mul]
        _ ≤ N * t := Nat.mul_le_mul_right t htmod
    obtain ⟨dfin, hloop, e_h, e_w, e_d, hpix⟩ := ih (s + 1)
      ⟨dst.h, dst.w, dst.depth, copyPix dst img (s / N * t) (s % N * t) (ti / N * t) (ti % N * t) t t⟩
      hdh hdw (by omega) (fun x hx => hmem x (List.mem_cons_of_mem ti hx))
    refine ⟨dfin, ?_, e_h, e_w, e_d, fun i j => ?_⟩
    · simp only [rearrangeLoop]
      rw [if_neg (by omega)]
      rw [assignTile_full dst img (s / N * t) (s % N * t) (ti / N * t) (ti % N * t) t t hr hc hir hic]
      exact hloop
    · rw [hpix i j]
      simp only [List.length_cons]
      by_cases hdom : i < img.h ∧ j < img.w
      · obtain ⟨hih, hjw⟩ := hdom
        have hjt : j / t < N := (Nat.div_lt_iff_lt_mul ht).mpr (by rw [← hw]; exact hjw)
        have hit : i / t < n := (Nat.div_lt_iff_lt_mul ht).mpr (by rw [← hh]; exact hih)
        have hrow := cell_range_iff i (s / N) t ht
        have hcol := cell_range_iff j (s % N) t ht
        by_cases hcs : i / t * N + j / t = s
        · obtain ⟨hd1, hd2⟩ : i / t = s / N ∧ j / t = s % N := by
            have hcd := cell_decomp (i / t) (j / t) N hjt
            rw [hcs] at hcd
            exact ⟨hcd.1.symm, hcd.2.symm⟩
          have hnot1 : ¬ (s + 1 ≤ i / t * N + j / t ∧ i / t * N + j / t < s + 1 + rest.length ∧ i < img.h ∧ j < img.w) := by
            rintro ⟨hq1, -, -, -⟩
            omega
          rw [if_neg hnot1]
          rw [if_pos ⟨Nat.le_of_eq hcs.symm, by omega, hih, hjw⟩]
          show copyPix dst img (s / N * t) (s % N * t) (ti / N * t) (ti % N * t) t t i j = _
          unfold copyPix
          obtain ⟨b1, b2⟩ := hrow.mpr hd1
          obtain ⟨b3, b4⟩ := hcol.mpr hd2
          rw [if_pos ⟨b1, b2, b3, b4⟩]
          rw [hcs, Nat.sub_self, List.getD_cons_zero]
          have hi1 := Nat.div_add_mod' i t
          have hj1 := Nat.div_add_mod' j t
          have gi : i - s / N * t = i % t := by rw [← hd1]; omega
          have gj : j - s % N * t = j % t := by rw [← hd2]; omega
          rw [gi, gj]
        · have hreg : ¬ (s / N * t ≤ i ∧ i < s / N * t + t ∧ s % N * t ≤ j ∧ j < s % N * t + t) := by
            rintro ⟨b1, b2, b3, b4⟩
            apply hcs
            rw [hrow.mp ⟨b1, b2⟩, hcol.mp ⟨b3, b4⟩]
            exact Nat.div_add_mod' s N
          by_cases hrng : s + 1 ≤ i / t * N + j / t ∧ i / t * N + j / t < s + 1 + rest.length
          · rw [if_pos ⟨hrng.1, hrng.2, hih, hjw⟩]
            rw [if_pos ⟨by omega, by omega, hih, hjw⟩]
            have hstep : i / t * N + j / t - s = (i / t * N + j / t - (s + 1)) + 1 := by omega
            rw [hstep, List.getD_cons_succ]
          · rw [if_neg (fun hq => hrng ⟨hq.1, hq.2.1⟩)]
            rw [if_neg (fun hq => hrng ⟨by omega, by omega⟩)]
            show copyPix dst img (s / N * t) (s % N * t) (ti / N * t) (ti % N * t) t t i j = _
            unfold copyPix
            rw [if_neg hreg]
      · have hreg : ¬ (s / N * t ≤ i ∧ i < s / N * t + t ∧ s % N * t ≤ j ∧ j < s % N * t + t) := by
          rintro ⟨b1, b2, b3, b4⟩
          apply hdom
          have q1 : s / N * t + t ≤ img.h := by rw [← hdh]; exact hr
          have q2 : s % N * t + t ≤ img.w := by rw [← hdw]; exact hc
          exact ⟨by omega, by omega⟩
        rw [if_neg (fun hq => hdom ⟨hq.2.2.1, hq.2.2.2⟩)]
        rw [if_neg (fun hq => hdom ⟨hq.2.2.1, hq.2.2.2⟩)]
        show copyPix dst img (s / N * t) (s % N * t) (ti / N * t) (ti % N * t) t t i j = _
        unfold copyPix
        rw [if_neg hreg]

/-- For square `t`x`t` tiles on an image with `n*t` rows and `N*t` columns,
`n ≤ N` (height at most width), `rearrange_tiles` succeeds and the output
pixel at `(i, j)` comes from the source cell given by the ordering entry of
destination cell `(i/t, j/t)`, cast to uint8. -/
theorem rearrange_square (img : PImage) (t n N : Nat) (O : List Nat)
    (ht : 0 < t) (hh : img.h = n * t) (hw : img.w = N * t) (hnN : n ≤ N)
    (hnd : O.Nodup) (hlen : O.length = n * N) (hx : ∀ x ∈ O, x < n * N) :
    ∃ out, rearrange_tiles true img (t, t) O = Except.ok out ∧
      out.h = img.h ∧ out.w = img.w ∧ out.depth = 8 ∧
      ∀ i j, i < img.h → j < img.w →
        out.pix i j = img.pix (O.getD (i / t * N + j / t) 0 / N * t + i % t) (O.getD (i / t * N + j / t) 0 % N * t + j % t) % 256 := by
  have ht2 : t ≠ 0 := Nat.pos_iff_ne_zero.mp ht
  have hhw : img.h * img.w = (n * N) * (t * t) := by rw [hh, hw]; ring
  have hv : valid_input (img.h, img.w) (t, t) O = some true := by
    have d1 : img.h % t = 0 := by rw [hh]; exact Nat.mul_mod_left n t
    have d2 : img.w % t = 0 := by rw [hw]; exact Nat.mul_mod_left N t
    have d3 : img.h * img.w % (t * t) = 0 := by rw [hhw]; exact Nat.mul_mod_left _ _
    have d4 : img.h * img.w / (t * t) = n * N := by
      rw [hhw]
      exact Nat.mul_div_left _ (Nat.mul_pos ht ht)
    simp [valid_input, d1, d2, d3, d4, hnd, hlen, ht2]
  have hm : max img.h img.w = N * t := by
    rw [hh, hw]
    exact Nat.max_eq_right (Nat.mul_le_mul_right t hnN)
  have hcore : rearrange_core img (t, t) O =
      rearrangeLoop img t t N N 0 O ⟨img.h, img.w, 8, fun _ _ => 0⟩ := by
    show (if t = 0 ∨ t = 0 then none
      else rearrangeLoop img t t (max img.h img.w / t) (max img.h img.w / t) 0 O
        ⟨img.h, img.w, 8, fun _ _ => 0⟩) = _
    rw [if_neg (by omega), hm, Nat.mul_div_left N ht]
  obtain ⟨out, hloop, e_h, e_w, e_d, hp⟩ := rearrangeLoop_square img t n N ht hh hw O 0
    ⟨img.h, img.w, 8, fun _ _ => 0⟩ rfl rfl (by omega) hx
  refine ⟨out, ?_, e_h, e_w, e_d, fun i j hi hj => ?_⟩
  · unfold rearrange_tiles
    rw [if_neg (by simp)]
    rw [hv, hcore, hloop]
  · rw [hp i j]
    have hjt : j / t < N := (Nat.div_lt_iff_lt_mul ht).mpr (by rw [← hw]; exact hj)
    have hit : i / t < n := (Nat.div_lt_iff_lt_mul ht).mpr (by rw [← hh]; exact hi)
    have hcid : i / t * N + j / t < n * N := by
      have h1 : (i / t + 1) * N ≤ n * N := Nat.mul_le_mul_right N hit
      rw [add_one_mul] at h1
      omega
    rw [if_pos ⟨Nat.zero_le _, by omega, hi, hj⟩, Nat.sub_zero]

/-- C1 (amended): for square tiles on an image whose height does not exceed
its width and whose 8-bit dimensions are exact multiples of the tile size,
the identity ordering reproduces the input image pixel for pixel. -/
theorem C1_identity_unscrambles (img : PImage) (t n N : Nat)
    (ht : 0 < t) (hh : img.h = n * t) (hw : img.w = N * t) (hnN : n ≤ N)
    (hpix : ∀ i < img.h, ∀ j < img.w, img.pix i j < 256) :
    ∃ out, rearrange_tiles true img (t, t) (List.range (n * N)) = Except.ok out ∧
      out.h = img.h ∧ out.w = img.w ∧
      ∀ i < img.h, ∀ j < img.w, out.pix i j = img.pix i j := by
  obtain ⟨out, ho, e1, e2, e3, hp⟩ := rearrange_square img t n N (List.range (n * N)) ht hh hw hnN
    (List.nodup_range _) (List.length_range _) (fun x hx => List.mem_range.mp hx)
  refine ⟨out, ho, e1, e2, fun i hi j hj => ?_⟩
  rw [hp i j hi hj]
  have hjt : j / t < N := (Nat.div_lt_iff_lt_mul ht).mpr (by rw [← hw]; exact hj)
  have hit : i / t < n := (Nat.div_lt_iff_lt_mul ht).mpr (by rw [← hh]; exact hi)
  have hcid : i / t * N + j / t < n * N := by
    have h1 : (i / t + 1) * N ≤ n * N := Nat.mul_le_mul_right N hit
    rw [add_one_mul] at h1
    omega
  have hg : (List.range (n * N)).getD (i / t * N + j / t) 0 = i / t * N + j / t := by
    rw [List.getD_eq_getElem?_getD, List.getElem?_range hcid, Option.getD_some]
  obtain ⟨u1, u2⟩ := cell_decomp (i / t) (j / t) N hjt
  rw [hg, u1, u2, Nat.div_add_mod' i t, Nat.div_add_mod' j t]
  exact Nat.mod_eq_of_lt (hpix i hi j hj)

/-- C8: on any 4x4 8-bit image with 2x2 tiles, the ordering `[1, 0, 3, 2]`
swaps the quadrants pairwise: top-left with top-right and bottom-left with
bottom-right (every output pixel comes from the horizontally opposite
quadrant, same row, column shifted by 2). -/
theorem C8_quadrant_swap (img : PImage) (h4 : img.h = 4) (w4 : img.w = 4)
    (hpix : ∀ i < img.h, ∀ j < img.w, img.pix i j < 256) :
    ∃ out, rearrange_tiles true img (2, 2) [1, 0, 3, 2] = Except.ok out ∧
      out.h = img.h ∧ out.w = img.w ∧
      ∀ i < 4, ∀ j < 4, out.pix i j = img.pix i (if j < 2 then j + 2 else j - 2) := by
  obtain ⟨out, ho, e1, e2, e3, hp⟩ := rearrange_square img 2 2 2 [1, 0, 3, 2] (by decide)
    (by rw [h4]) (by rw [w4]) (Nat.le_refl 2) (by decide) (by decide) (by decide)
  rw [h4] at hpix
  rw [w4] at hpix
  refine ⟨out, ho, e1, e2, fun i hi j hj => ?_⟩
  rw [hp i j (by rw [h4]; exact hi) (by rw [w4]; exact hj)]
  interval_cases i <;> interval_cases j <;>
    exact (Nat.mod_eq_of_lt (hpix _ (by decide) _ (by decide))).trans
      (congrArg₂ img.pix (by decide) (by decide))

/-- Helper: an in-bounds `getD` returns an element of the list. -/
theorem getD_lt_of_mem (L : List Nat) (k b : Nat) (hk : k < L.length)
    (hb : ∀ x ∈ L, x < b) : L.getD k 0 < b := by
  have hmem : L.getD k 0 ∈ L := by
    rw [List.getD_eq_getElem?_getD, List.getElem?_eq_getElem hk, Option.getD_some]
    exact List.getElem_mem hk
  exact hb _ hmem

/-- C2 (amended): for square tiles on an 8-bit image whose height does not
exceed its width, rearranging with a permutation `O` of `[0, tileCount)` and
then rearranging the result with the inverse permutation of `O` reproduces
the original image pixel for pixel. -/
theorem C2_roundtrip_inverse (img : PImage) (t n N : Nat) (O Oinv : List Nat)
    (ht : 0 < t) (hh : img.h = n * t) (hw : img.w = N * t) (hnN : n ≤ N)
    (hO : O.Nodup) (hOl : O.length = n * N) (hOx : ∀ x ∈ O, x < n * N)
    (hI : Oinv.Nodup) (hIl : Oinv.length = n * N) (hIx : ∀ x ∈ Oinv, x < n * N)
    (hinv : ∀ x < n * N, O.getD (Oinv.getD x 0) 0 = x)
    (hpix : ∀ i < img.h, ∀ j < img.w, img.pix i j < 256) :
    ∃ out1 out2, rearrange_tiles true img (t, t) O = Except.ok out1 ∧
      rearrange_tiles true out1 (t, t) Oinv = Except.ok out2 ∧
      out2.h = img.h ∧ out2.w = img.w ∧
      ∀ i < img.h, ∀ j < img.w, out2.pix i j = img.pix i j := by
  obtain ⟨out1, ho1, a1, a2, a3, hp1⟩ := rearrange_square img t n N O ht hh hw hnN hO hOl hOx
  obtain ⟨out2, ho2, b1, b2, b3, hp2⟩ := rearrange_square out1 t n N Oinv ht
    (by rw [a1, hh]) (by rw [a2, hw]) hnN hI hIl hIx
  refine ⟨out1, out2, ho1, ho2, by rw [b1, a1], by rw [b2, a2], fun i hi j hj => ?_⟩
  have hi1 : i < out1.h := by rw [a1]; exact hi
  have hj1 : j < out1.w := by rw [a2]; exact hj
  rw [hp2 i j hi1 hj1]
  have hjt : j / t < N := (Nat.div_lt_iff_lt_mul ht).mpr (by rw [← hw]; exact hj)
  have hit : i / t < n := (Nat.div_lt_iff_lt_mul ht).mpr (by rw [← hh]; exact hi)
  have hN : 0 < N := Nat.lt_of_le_of_lt (Nat.zero_le _) hjt
  have hcid : i / t * N + j / t < n * N := by
    have h1 : (i / t + 1) * N ≤ n * N := Nat.mul_le_mul_right N hit
    rw [add_one_mul] at h1
    omega
  set k := Oinv.getD (i / t * N + j / t) 0 with hk
  have hkb : k < n * N := by
    rw [hk]
    exact getD_lt_of_mem Oinv _ _ (by omega) hIx
  have hkd : k / N < n := (Nat.div_lt_iff_lt_mul hN).mpr hkb
  have hkm : k % N < N := Nat.mod_lt k hN
  have himt : i % t < t := Nat.mod_lt i ht
  have hjmt : j % t < t := Nat.mod_lt j ht
  have hP : k / N * t + i % t < img.h := by
    rw [hh]
    have h1 : (k / N + 1) * t ≤ n * t := Nat.mul_le_mul_right t hkd
    rw [add_one_mul] at h1
    omega
  have hQ : k % N * t + j % t < img.w := by
    rw [hw]
    have h1 : (k % N + 1) * t ≤ N * t := Nat.mul_le_mul_right t hkm
    rw [add_one_mul] at h1
    omega
  rw [hp1 _ _ hP hQ]
  have e1 : (k / N * t + i % t) / t = k / N :=
    (cell_range_iff _ (k / N) t ht).mp ⟨Nat.le_add_right _ _, by omega⟩
  have f1 : (k % N * t + j % t) / t = k % N :=
    (cell_range_iff _ (k % N) t ht).mp ⟨Nat.le_add_right _ _, by omega⟩
  have e2 : (k / N * t + i % t) % t = i % t := by
    have hd := Nat.div_add_mod' (k / N * t + i % t) t
    rw [e1] at hd
    omega
  have f2 : (k % N * t + j % t) % t = j % t := by
    have hd := Nat.div_add_mod' (k % N * t + j % t) t
    rw [f1] at hd
    omega
  have ecid : (k / N * t + i % t) / t * N + (k % N * t + j % t) / t = k := by
    rw [e1, f1]
    exact Nat.div_add_mod' k N
  have hOk : O.getD k 0 = i / t * N + j / t := by
    rw [hk]
    exact hinv _ hcid
  obtain ⟨u1, u2⟩ := cell_decomp (i / t) (j / t) N hjt
  rw [ecid, hOk, u1, u2, e2, f2, Nat.div_add_mod' i t, Nat.div_add_mod' j t]
  have hl := hpix i hi j hj
  omega

/-- C1 witness: on the concrete 2x3 image with 1x1 tiles (height 2 = 2*1 at
most width 3 = 3*1), the identity ordering `[0, ..., 5]` reproduces the
image. -/
theorem C1_witness :
    (0 < 1 ∧ cimg23.h = 2 * 1 ∧ cimg23.w = 3 * 1 ∧ 2 ≤ 3 ∧
      (∀ i < cimg23.h, ∀ j < cimg23.w, cimg23.pix i j < 256)) ∧
    (∃ out, rearrange_tiles true cimg23 (1, 1) (List.range (2 * 3)) = Except.ok out ∧
      out.h = cimg23.h ∧ out.w = cimg23.w ∧
      ∀ i < cimg23.h, ∀ j < cimg23.w, out.pix i j = cimg23.pix i j) :=
  ⟨⟨by decide, by decide, by decide, by decide, by decide⟩,
    C1_identity_unscrambles cimg23 1 2 3 (by decide) (by decide) (by decide) (by decide)
      (by decide)⟩

/-- C2 witness: on the concrete 4x4 image with 2x2 tiles, the self-inverse
permutation `[1, 0, 3, 2]` round-trips to the original image. -/
theorem C2_witness :
    (0 < 2 ∧ cimg44.h = 2 * 2 ∧ cimg44.w = 2 * 2 ∧ 2 ≤ 2 ∧
      ([1, 0, 3, 2] : List Nat).Nodup ∧ ([1, 0, 3, 2] : List Nat).length = 2 * 2 ∧
      (∀ x ∈ ([1, 0, 3, 2] : List Nat), x < 2 * 2) ∧
      (∀ x < 2 * 2, ([1, 0, 3, 2] : List Nat).getD (([1, 0, 3, 2] : List Nat).getD x 0) 0 = x) ∧
      (∀ i < cimg44.h, ∀ j < cimg44.w, cimg44.pix i j < 256)) ∧
    (∃ out1 out2, rearrange_tiles true cimg44 (2, 2) [1, 0, 3, 2] = Except.ok out1 ∧
      rearrange_tiles true out1 (2, 2) [1, 0, 3, 2] = Except.ok out2 ∧
      out2.h = cimg44.h ∧ out2.w = cimg44.w ∧
      ∀ i < cimg44.h, ∀ j < cimg44.w, out2.pix i j = cimg44.pix i j) :=
  ⟨⟨by decide, by decide, by decide, by decide, by decide, by decide, by decide, by decide,
      by decide⟩,
    C2_roundtrip_inverse cimg44 2 2 2 [1, 0, 3, 2] [1, 0, 3, 2] (by decide) (by decide)
      (by decide) (by decide) (by decide) (by decide) (by decide) (by decide) (by decide)
      (by decide) (by decide) (by decide)⟩

/-- C8 witness: the quadrant swap on the concrete 4x4 image with pairwise
distinct pixels. -/
theorem C8_witness :
    (cimg44.h = 4 ∧ cimg44.w = 4 ∧ (∀ i < cimg44.h, ∀ j < cimg44.w, cimg44.pix i j < 256)) ∧
    (∃ out, rearrange_tiles true cimg44 (2, 2) [1, 0, 3, 2] = Except.ok out ∧
      out.h = cimg44.h ∧ out.w = cimg44.w ∧
      ∀ i < 4, ∀ j < 4, out.pix i j = cimg44.pix i (if j < 2 then j + 2 else j - 2)) :=
  ⟨⟨rfl, rfl, by decide⟩, C8_quadrant_swap cimg44 rfl rfl (by decide)⟩
